import Mathlib

/-!
Shallow embedding of src/reduce.cpp: a matrix row-sum reduction with two
scheduling disciplines, static (fixed stride per thread) and dynamic (shared
countdown cursor under a mutex).  Machine integers are modelled as Nat with
explicit wrap (% 2 ^ 64) where uint64_t arithmetic occurs; the shared counter
is modelled as Int (C int) so that nonnegativity is a proved invariant rather
than a typing assumption.  The concurrent loops are modelled by a small-step
relation: a schedule is the list of thread ids in global lock-acquisition
(interleaving) order, and one step is one loop iteration of that thread.  A
loop iteration of sum_dynamic is one atomic event: the check-and-decrement on
the cursor happens under counter_lock, and the remainder of the iteration
touches only that thread's private slots sum[tid] and tcount[tid], so finer
interleavings are observationally identical.
-/

namespace Reduce

/-- Number of rows in the work matrix (constexpr int rows = 1000). -/
def rows : Nat := 1000

/-- Number of columns in the work matrix (constexpr int cols = 100). -/
def cols : Nat := 100

/-- Wrapping addition of two uint64_t values. -/
def add64 (a b : Nat) : Nat := (a + b) % 2 ^ 64

/-- Inner column loop shared by both workers: starting from accumulator acc,
perform sum += (uint64_t) work[i][j] for j = 0 .. cols-1.  Matrix entries come
from rand() and are nonnegative, so the matrix is modelled as Nat-valued. -/
def rowSum (work : Nat → Nat → Nat) (i acc : Nat) : Nat :=
  (List.range cols).foldl (fun a j => add64 a (work i j)) acc

/-- Exact (unbounded) mathematical sum of row i of the matrix. -/
def rowSumExact (work : Nat → Nat → Nat) (i : Nat) : Nat :=
  ((List.range cols).map (work i)).sum

/-- Reference sum: serially summing every matrix element work[i][j]. -/
def refSum (work : Nat → Nat → Nat) : Nat :=
  ((List.range rows).map (rowSumExact work)).sum

/-- Accumulate whole rows of the matrix, in list order, into a uint64_t
accumulator, as the workers do. -/
def wsum (work : Nat → Nat → Nat) (l : List Nat) (acc : Nat) : Nat :=
  l.foldl (fun a i => rowSum work i a) acc

/-! ## Static load balancing (sum_static, reduce.cpp lines 36-56) -/

/-- Row indices visited by the while loop of sum_static starting at index i
with stride n.  The fuel argument bounds the number of iterations; the loop
runs at most rows times whenever 0 < n, and the entry point staticRows passes
fuel = rows, so with a positive stride the fuel never runs out. -/
def staticGo (n : Nat) : Nat → Nat → List Nat
  | _, 0 => []
  | i, fuel + 1 => if i < rows then i :: staticGo n (i + n) fuel else []

/-- Rows summed by thread tid under static balancing with n threads:
int i = tid; while (i < rows) { ... i += num_threads; }. -/
def staticRows (tid n : Nat) : List Nat := staticGo n tid rows

/-- One iteration of the sum_static while loop acting on the loop state
(i, tcount[tid], sum[tid]): if i < rows, add row i into sum[tid], increment
tcount[tid], and advance i by the stride n; otherwise the state is final. -/
def stepOnce (work : Nat → Nat → Nat) (n : Nat) (st : Nat × Nat × Nat) :
    Nat × Nat × Nat :=
  if st.1 < rows then (st.1 + n, st.2.1 + 1, rowSum work st.1 st.2.2) else st

/-- The while loop of sum_static on the state (i, tcount[tid], sum[tid]),
with fuel bounding the iteration count exactly as in staticGo. -/
def staticLoop (work : Nat → Nat → Nat) (n : Nat) :
    Nat → Nat × Nat × Nat → Nat × Nat × Nat
  | 0, st => st
  | fuel + 1, st =>
    if st.1 < rows then
      staticLoop work n fuel (st.1 + n, st.2.1 + 1, rowSum work st.1 st.2.2)
    else st

/-- Final loop state of sum_static for thread tid with n threads.  Fuel rows
always reaches the loop exit when 0 < n (proved below), so this is exactly
the while loop of the source. -/
def staticWorker (work : Nat → Nat → Nat) (n tid : Nat) : Nat × Nat × Nat :=
  staticLoop work n rows (tid, 0, 0)

/-- tcount[tid] at the end of sum_static. -/
def staticTc (work : Nat → Nat → Nat) (n tid : Nat) : Nat :=
  (staticWorker work n tid).2.1

/-- sum[tid] at the end of sum_static. -/
def staticSum (work : Nat → Nat → Nat) (n tid : Nat) : Nat :=
  (staticWorker work n tid).2.2

/-- total_work accumulated in main after joining: sum of tcount[0..n). -/
def staticTotal (work : Nat → Nat → Nat) (n : Nat) : Nat :=
  ((List.range n).map (staticTc work n)).sum

/-- gross_sum accumulated in main: uint64_t fold over the sum vector. -/
def staticGross (work : Nat → Nat → Nat) (n : Nat) : Nat :=
  ((List.range n).map (staticSum work n)).foldl add64 0

/-! ## Basic facts about add64 folds -/

theorem add64_eq_add {a b : Nat} (h : a + b < 2 ^ 64) : add64 a b = a + b :=
  Nat.mod_eq_of_lt h

theorem foldl_add64_eq {α : Type} (g : α → Nat) :
    ∀ (l : List α) (acc : Nat), acc + (l.map g).sum < 2 ^ 64 →
      l.foldl (fun a x => add64 a (g x)) acc = acc + (l.map g).sum := by
  intro l
  induction l with
  | nil => intro acc _; simp
  | cons x xs ih =>
    intro acc h
    simp only [List.map_cons, List.sum_cons] at h
    have hx : acc + g x < 2 ^ 64 := by omega
    simp only [List.foldl_cons, List.map_cons, List.sum_cons]
    rw [add64_eq_add hx, ih (acc + g x) (by omega)]
    omega

theorem rowSum_exact (work : Nat → Nat → Nat) (i acc : Nat)
    (h : acc + rowSumExact work i < 2 ^ 64) :
    rowSum work i acc = acc + rowSumExact work i :=
  foldl_add64_eq (work i) (List.range cols) acc h

theorem wsum_exact (work : Nat → Nat → Nat) :
    ∀ (l : List Nat) (acc : Nat),
      acc + (l.map (rowSumExact work)).sum < 2 ^ 64 →
      wsum work l acc = acc + (l.map (rowSumExact work)).sum := by
  intro l
  induction l with
  | nil => intro acc _; simp [wsum]
  | cons x xs ih =>
    intro acc h
    simp only [List.map_cons, List.sum_cons] at h
    have hx : acc + rowSumExact work x < 2 ^ 64 := by omega
    simp only [wsum, List.foldl_cons, List.map_cons, List.sum_cons]
    rw [rowSum_exact work x acc hx]
    have := ih (acc + rowSumExact work x) (by omega)
    simp only [wsum] at this
    rw [this]
    omega

theorem foldl_add64_id :
    ∀ (l : List Nat) (acc : Nat), acc + l.sum < 2 ^ 64 →
      l.foldl add64 acc = acc + l.sum := by
  intro l acc h
  have h2 : acc + (l.map id).sum < 2 ^ 64 := by simpa using h
  have := foldl_add64_eq (id : Nat → Nat) l acc h2
  simpa using this

/-! ## Characterization of the static schedule -/

theorem staticGo_get? {n : Nat} (hn : 0 < n) :
    ∀ (fuel i : Nat), rows ≤ i + fuel →
      ∀ k, (staticGo n i fuel).get? k =
        if i + k * n < rows then some (i + k * n) else none := by
  intro fuel
  induction fuel with
  | zero =>
    intro i hi k
    have : ¬ i + k * n < rows := by omega
    simp [staticGo, this]
  | succ fuel ih =>
    intro i hi k
    by_cases h : i < rows
    · simp only [staticGo, if_pos h]
      cases k with
      | zero => simp [h]
      | succ k =>
        have hrec := ih (i + n) (by omega) k
        simp only [List.get?_cons_succ, hrec]
        have : i + n + k * n = i + (k + 1) * n := by ring
        rw [this]
    · have hk : ¬ i + k * n < rows := by omega
      simp [staticGo, h, hk]

theorem staticRows_get? {tid n : Nat} (hn : 0 < n) (k : Nat) :
    (staticRows tid n).get? k =
      if tid + k * n < rows then some (tid + k * n) else none :=
  staticGo_get? hn rows tid (by omega) k

theorem mem_staticRows {tid n : Nat} (hn : 0 < n) {r : Nat} :
    r ∈ staticRows tid n ↔ ∃ k, r = tid + k * n ∧ r < rows := by
  constructor
  · intro hr
    obtain ⟨k, hk⟩ := List.mem_iff_get?.mp hr
    rw [staticRows_get? hn k] at hk
    by_cases h : tid + k * n < rows
    · rw [if_pos h] at hk
      injection hk with h2
      exact ⟨k, h2.symm, h2 ▸ h⟩
    · rw [if_neg h] at hk; cases hk
  · rintro ⟨k, rfl, hlt⟩
    apply List.mem_iff_get?.mpr
    exact ⟨k, by rw [staticRows_get? hn k, if_pos hlt]⟩

theorem staticGo_mem_ge {n : Nat} :
    ∀ (fuel i r : Nat), r ∈ staticGo n i fuel → i ≤ r := by
  intro fuel
  induction fuel with
  | zero => intro i r h; simp [staticGo] at h
  | succ fuel ih =>
    intro i r h
    simp only [staticGo] at h
    by_cases hi : i < rows
    · rw [if_pos hi] at h
      rcases List.mem_cons.mp h with rfl | h2
      · exact Nat.le_refl r
      · have := ih (i + n) r h2; omega
    · rw [if_neg hi] at h; cases h

theorem staticGo_pairwise {n : Nat} (hn : 0 < n) :
    ∀ (fuel i : Nat), (staticGo n i fuel).Pairwise (· < ·) := by
  intro fuel
  induction fuel with
  | zero => intro i; simp [staticGo]
  | succ fuel ih =>
    intro i
    simp only [staticGo]
    by_cases hi : i < rows
    · rw [if_pos hi]
      refine List.pairwise_cons.mpr ⟨?_, ih (i + n)⟩
      intro r hr
      have := staticGo_mem_ge (n := n) fuel (i + n) r hr
      omega
    · rw [if_neg hi]; exact List.Pairwise.nil

theorem staticRows_nodup {tid n : Nat} (hn : 0 < n) :
    (staticRows tid n).Nodup :=
  (staticGo_pairwise hn rows tid).imp Nat.ne_of_lt

/-- Membership in a static worker's row list determines the worker: the rows
of thread tid with tid < n are exactly the r < rows congruent to tid mod n. -/
theorem staticRows_worker_eq {tid n r : Nat} (htid : tid < n)
    (hr : r ∈ staticRows tid n) : tid = r % n := by
  have hn : 0 < n := by omega
  obtain ⟨k, rfl, _⟩ := (mem_staticRows hn).mp hr
  rw [Nat.add_mul_mod_self_right]
  exact (Nat.mod_eq_of_lt htid).symm

theorem staticRows_mem_of_lt {n r : Nat} (hn : 0 < n) (hr : r < rows) :
    r ∈ staticRows (r % n) n := by
  refine (mem_staticRows hn).mpr ⟨r / n, ?_, hr⟩
  exact (Nat.mod_add_div' r n).symm

/-! ## The static schedules partition the rows -/

/-- Concatenation of the row lists of all n static workers. -/
def allStatic (n : Nat) : List Nat :=
  (List.range n).flatMap (fun w => staticRows w n)

theorem count_staticRows {n w r : Nat} (hw : w < n) :
    (staticRows w n).count r = if w = r % n ∧ r < rows then 1 else 0 := by
  have hn : 0 < n := by omega
  by_cases h : w = r % n ∧ r < rows
  · rw [if_pos h]
    exact List.count_eq_one_of_mem (staticRows_nodup hn)
      (h.1 ▸ staticRows_mem_of_lt hn h.2)
  · rw [if_neg h]
    refine List.count_eq_zero.mpr ?_
    intro hr
    obtain ⟨k, hk, h3⟩ := (mem_staticRows hn).mp hr
    exact h ⟨staticRows_worker_eq hw hr, h3⟩

theorem count_range_flatMap {n r : Nat} :
    ∀ (m : Nat), m ≤ n →
      (((List.range m).flatMap (fun w => staticRows w n)).count r) =
        if r % n < m ∧ r < rows then 1 else 0 := by
  intro m
  induction m with
  | zero => intro _; simp
  | succ m ih =>
    intro hm
    rw [List.range_succ, List.flatMap_append, List.count_append, ih (by omega)]
    have hcnt : (List.flatMap [m] (fun w => staticRows w n)).count r =
        if m = r % n ∧ r < rows then 1 else 0 := by
      simpa using count_staticRows (n := n) (w := m) (r := r) (by omega)
    rw [hcnt]
    have hmod : r % n < n := Nat.mod_lt r (by omega)
    split_ifs <;> omega

theorem count_allStatic {n : Nat} (hn : 0 < n) (r : Nat) :
    (allStatic n).count r = if r < rows then 1 else 0 := by
  rw [allStatic, count_range_flatMap n (Nat.le_refl n)]
  have hmod : r % n < n := Nat.mod_lt r hn
  split_ifs <;> omega

theorem count_range_eq (m r : Nat) :
    (List.range m).count r = if r < m then 1 else 0 := by
  by_cases h : r < m
  · rw [if_pos h]
    exact List.count_eq_one_of_mem (List.nodup_range m) (List.mem_range.mpr h)
  · rw [if_neg h]
    exact List.count_eq_zero.mpr (fun hc => h (List.mem_range.mp hc))

theorem allStatic_perm {n : Nat} (hn : 0 < n) :
    (allStatic n).Perm (List.range rows) := by
  refine List.perm_iff_count.mpr (fun r => ?_)
  rw [count_allStatic hn r, count_range_eq rows r]

/-! ## The sum_static loop as a fold over its row list -/

theorem wsum_cons (work : Nat → Nat → Nat) (i : Nat) (l : List Nat) (acc : Nat) :
    wsum work (i :: l) acc = wsum work l (rowSum work i acc) := by
  simp [wsum]

theorem staticGo_of_ge {n : Nat} :
    ∀ (fuel i : Nat), rows ≤ i → staticGo n i fuel = [] := by
  intro fuel
  cases fuel with
  | zero => intro i _; rfl
  | succ fuel => intro i hi; simp [staticGo, Nat.not_lt.mpr hi]

theorem staticLoop_trace (work : Nat → Nat → Nat) (n : Nat) :
    ∀ (fuel i tc s : Nat),
      (staticLoop work n fuel (i, tc, s)).2 =
        (tc + (staticGo n i fuel).length, wsum work (staticGo n i fuel) s) := by
  intro fuel
  induction fuel with
  | zero => intro i tc s; simp [staticLoop, staticGo, wsum]
  | succ fuel ih =>
    intro i tc s
    by_cases hi : i < rows
    · simp only [staticLoop, if_pos hi]
      rw [ih (i + n) (tc + 1) (rowSum work i s)]
      simp only [staticGo, if_pos hi, List.length_cons, wsum_cons]
      have harith : tc + 1 + (staticGo n (i + n) fuel).length =
          tc + ((staticGo n (i + n) fuel).length + 1) := by omega
      rw [harith]
    · simp [staticLoop, staticGo, hi, wsum]

theorem staticWorker_snd (work : Nat → Nat → Nat) (n tid : Nat) :
    (staticWorker work n tid).2 =
      ((staticRows tid n).length, wsum work (staticRows tid n) 0) := by
  have h := staticLoop_trace work n rows tid 0 0
  unfold staticWorker
  rw [h]
  simp [staticRows]

theorem staticTc_eq (work : Nat → Nat → Nat) (n tid : Nat) :
    staticTc work n tid = (staticRows tid n).length := by
  unfold staticTc
  rw [staticWorker_snd]

theorem staticSum_eq (work : Nat → Nat → Nat) (n tid : Nat) :
    staticSum work n tid = wsum work (staticRows tid n) 0 := by
  unfold staticSum
  rw [staticWorker_snd]

/-! ## Termination and stabilization of the static loop -/

/-- Plain k-fold application of stepOnce; this is the per-thread effect of k
interleaved scheduler events for one thread (stuttering after loop exit). -/
def stepIter (work : Nat → Nat → Nat) (n : Nat) :
    Nat → Nat × Nat × Nat → Nat × Nat × Nat
  | 0, st => st
  | k + 1, st => stepIter work n k (stepOnce work n st)

theorem stepOnce_fixed (work : Nat → Nat → Nat) (n : Nat)
    (st : Nat × Nat × Nat) (h : rows ≤ st.1) : stepOnce work n st = st := by
  simp [stepOnce, Nat.not_lt.mpr h]

theorem stepIter_fixed (work : Nat → Nat → Nat) (n : Nat) :
    ∀ (k : Nat) (st : Nat × Nat × Nat), rows ≤ st.1 →
      stepIter work n k st = st := by
  intro k
  induction k with
  | zero => intro st _; rfl
  | succ k ih =>
    intro st h
    simp only [stepIter, stepOnce_fixed work n st h]
    exact ih st h

theorem stepIter_add (work : Nat → Nat → Nat) (n : Nat) :
    ∀ (a b : Nat) (st : Nat × Nat × Nat),
      stepIter work n (a + b) st = stepIter work n a (stepIter work n b st) := by
  intro a b
  induction b generalizing a with
  | zero => intro st; rfl
  | succ b ih =>
    intro st
    have h1 : a + (b + 1) = (a + b) + 1 := by omega
    rw [h1]
    simp only [stepIter]
    exact ih a (stepOnce work n st)

theorem staticLoop_eq_stepIter (work : Nat → Nat → Nat) (n : Nat) :
    ∀ (fuel : Nat) (st : Nat × Nat × Nat),
      staticLoop work n fuel st = stepIter work n fuel st := by
  intro fuel
  induction fuel with
  | zero => intro st; rfl
  | succ fuel ih =>
    intro st
    by_cases h : st.1 < rows
    · simp only [staticLoop, if_pos h, stepIter]
      rw [ih]
      have hstep : stepOnce work n st = (st.1 + n, st.2.1 + 1, rowSum work st.1 st.2.2) := by
        simp [stepOnce, h]
      rw [hstep]
    · simp only [staticLoop, if_neg h, stepIter]
      rw [stepOnce_fixed work n st (Nat.not_lt.mp h)]
      exact (stepIter_fixed work n fuel st (Nat.not_lt.mp h)).symm

theorem stepIter_idx_ge (work : Nat → Nat → Nat) {n : Nat} (hn : 0 < n) :
    ∀ (k : Nat) (st : Nat × Nat × Nat),
      min rows (st.1 + k) ≤ (stepIter work n k st).1 := by
  intro k
  induction k with
  | zero => intro st; simp [stepIter]
  | succ k ih =>
    intro st
    simp only [stepIter]
    have hih := ih (stepOnce work n st)
    by_cases h : st.1 < rows
    · have h1 : (stepOnce work n st).1 = st.1 + n := by simp [stepOnce, h]
      rw [h1] at hih
      omega
    · have h1 : (stepOnce work n st).1 = st.1 := by simp [stepOnce, h]
      rw [h1] at hih
      omega

theorem staticWorker_finished (work : Nat → Nat → Nat) {n : Nat} (hn : 0 < n)
    (tid : Nat) : rows ≤ (staticWorker work n tid).1 := by
  have h := stepIter_idx_ge work hn rows (tid, 0, 0)
  unfold staticWorker
  rw [staticLoop_eq_stepIter]
  have h2 : (tid, (0 : Nat), (0 : Nat)).1 = tid := rfl
  rw [h2] at h
  omega

theorem stepIter_stable (work : Nat → Nat → Nat) (n : Nat)
    {k m : Nat} (st : Nat × Nat × Nat)
    (hk : rows ≤ (stepIter work n k st).1) (hkm : k ≤ m) :
    stepIter work n m st = stepIter work n k st := by
  obtain ⟨d, rfl⟩ := Nat.exists_eq_add_of_le hkm
  rw [show k + d = d + k from Nat.add_comm k d, stepIter_add]
  exact stepIter_fixed work n d _ hk

/-! ## Static aggregates: total_work and gross_sum -/

theorem sum_map_flatMap {α β : Type} (g : β → Nat) :
    ∀ (l : List α) (f : α → List β),
      ((l.flatMap f).map g).sum = (l.map (fun a => ((f a).map g).sum)).sum := by
  intro l f
  induction l with
  | nil => simp
  | cons a l ih => simp [ih]

theorem length_flatMap_eq {α β : Type} :
    ∀ (l : List α) (f : α → List β),
      (l.flatMap f).length = (l.map (fun a => (f a).length)).sum := by
  intro l f
  induction l with
  | nil => simp
  | cons a l ih => simp [ih]

theorem static_total_eq (work : Nat → Nat → Nat) {n : Nat} (hn : 0 < n) :
    staticTotal work n = rows := by
  unfold staticTotal
  have h1 : (List.range n).map (staticTc work n) =
      (List.range n).map (fun w => (staticRows w n).length) :=
    List.map_congr_left (fun w _ => staticTc_eq work n w)
  rw [h1, ← length_flatMap_eq (List.range n) (fun w => staticRows w n)]
  rw [show (List.range n).flatMap (fun w => staticRows w n) = allStatic n from rfl]
  rw [(allStatic_perm hn).length_eq, List.length_range]

theorem sum_allStatic_eq (work : Nat → Nat → Nat) {n : Nat} (hn : 0 < n) :
    ((allStatic n).map (rowSumExact work)).sum = refSum work := by
  have := (allStatic_perm hn).map (rowSumExact work)
  rw [this.sum_eq]
  rfl

/-- Exact per-worker sum of worker w under static balancing. -/
def staticSumExact (work : Nat → Nat → Nat) (n w : Nat) : Nat :=
  ((staticRows w n).map (rowSumExact work)).sum

theorem sum_staticSumExact (work : Nat → Nat → Nat) {n : Nat} (hn : 0 < n) :
    ((List.range n).map (staticSumExact work n)).sum = refSum work := by
  have h := sum_map_flatMap (rowSumExact work) (List.range n)
    (fun w => staticRows w n)
  rw [show (List.range n).flatMap (fun w => staticRows w n) = allStatic n from rfl]
    at h
  rw [sum_allStatic_eq work hn] at h
  have h2 : (List.range n).map (staticSumExact work n) =
      (List.range n).map (fun a => ((staticRows a n).map (rowSumExact work)).sum) :=
    List.map_congr_left (fun w _ => rfl)
  rw [h2]
  exact h.symm

/-! ## Element bounds and absence of 64-bit overflow -/

/-- Hypothesis that every in-range matrix element is a rand() value, hence
less than 2^31 (RAND_MAX is 2^31 - 1). -/
def ElemBound (work : Nat → Nat → Nat) : Prop :=
  ∀ i, i < rows → ∀ j, j < cols → work i j < 2 ^ 31

theorem sum_map_le {α : Type} (f : α → Nat) (B : Nat) :
    ∀ l : List α, (∀ x ∈ l, f x ≤ B) → (l.map f).sum ≤ l.length * B := by
  intro l
  induction l with
  | nil => intro _; simp
  | cons a l ih =>
    intro h
    simp only [List.map_cons, List.sum_cons, List.length_cons]
    have h1 := h a (List.mem_cons_self a l)
    have h2 := ih (fun x hx => h x (List.mem_cons_of_mem a hx))
    have h3 : (l.length + 1) * B = l.length * B + B := Nat.succ_mul l.length B
    omega

theorem rowSumExact_le {work : Nat → Nat → Nat} (hB : ElemBound work)
    {i : Nat} (hi : i < rows) : rowSumExact work i ≤ cols * (2 ^ 31 - 1) := by
  unfold rowSumExact
  have h := sum_map_le (work i) (2 ^ 31 - 1) (List.range cols) ?_
  · simpa using h
  · intro j hj
    have := hB i hi j (List.mem_range.mp hj)
    omega

theorem refSum_lt {work : Nat → Nat → Nat} (hB : ElemBound work) :
    refSum work < 2 ^ 48 := by
  unfold refSum
  have h := sum_map_le (rowSumExact work) (cols * (2 ^ 31 - 1)) (List.range rows) ?_
  · have hlen : (List.range rows).length = rows := List.length_range rows
    rw [hlen] at h
    have hnum : rows * (cols * (2 ^ 31 - 1)) < 2 ^ 48 := by norm_num [rows, cols]
    omega
  · intro i hi
    exact rowSumExact_le hB (List.mem_range.mp hi)

theorem staticSumExact_le (work : Nat → Nat → Nat) {n w : Nat} (hn : 0 < n)
    (hw : w < n) : staticSumExact work n w ≤ refSum work := by
  have hmem : staticSumExact work n w ∈
      (List.range n).map (staticSumExact work n) :=
    List.mem_map.mpr ⟨w, List.mem_range.mpr hw, rfl⟩
  calc staticSumExact work n w
      ≤ ((List.range n).map (staticSumExact work n)).sum :=
        List.single_le_sum (fun x _ => Nat.zero_le x) _ hmem
    _ = refSum work := sum_staticSumExact work hn

theorem staticSum_exact (work : Nat → Nat → Nat) {n w : Nat} (hn : 0 < n)
    (hw : w < n) (hB : ElemBound work) :
    staticSum work n w = staticSumExact work n w := by
  rw [staticSum_eq]
  have hb : 0 + ((staticRows w n).map (rowSumExact work)).sum < 2 ^ 64 := by
    have h1 := staticSumExact_le work hn hw
    have h2 := refSum_lt hB
    unfold staticSumExact at h1
    have : (2 : Nat) ^ 48 < 2 ^ 64 := by norm_num
    omega
  rw [wsum_exact work _ 0 hb]
  unfold staticSumExact
  omega

theorem static_gross_eq (work : Nat → Nat → Nat) {n : Nat} (hn : 0 < n)
    (hB : ElemBound work) : staticGross work n = refSum work := by
  unfold staticGross
  have h1 : (List.range n).map (staticSum work n) =
      (List.range n).map (staticSumExact work n) :=
    List.map_congr_left (fun w hw =>
      staticSum_exact work hn (List.mem_range.mp hw) hB)
  rw [h1]
  have hsum := sum_staticSumExact work hn
  have hb : 0 + ((List.range n).map (staticSumExact work n)).sum < 2 ^ 64 := by
    have h2 := refSum_lt hB
    have : (2 : Nat) ^ 48 < 2 ^ 64 := by norm_num
    omega
  rw [foldl_add64_id _ 0 hb]
  omega

/-! ## Dynamic load balancing (sum_dynamic, reduce.cpp lines 73-106)

A schedule is the list of thread ids in global counter_lock acquisition
order; one step is one iteration of a thread's while loop.  The claim
(check-and-decrement of the shared counter) happens under the lock; the row
summation and the tcount increment happen after release, but they touch only
that thread's private slots sum[tid] and tcount[tid], so folding them into
the claim event is observationally identical to any finer interleaving.  A
step by a thread whose loop has ended is a no-op. -/

/-- Global state of a dynamic-mode run with n worker threads.  counter is the
shared volatile int cursor (initially rows); tcount and sum are each thread's
slots of the tcount and sum vectors; done is each thread's loop-exit flag;
gseq is a ghost log of the successful claims as (thread id, row) pairs,
newest first, in counter_lock acquisition order. -/
structure DynState (n : Nat) where
  counter : Int
  tcount : Fin n → Nat
  sum : Fin n → Nat
  done : Fin n → Bool
  gseq : List (Nat × Nat)

/-- Initial dynamic state: counter = rows, vectors zero, no thread done. -/
def dynInit (n : Nat) : DynState n :=
  { counter := (rows : Int)
    tcount := fun _ => 0
    sum := fun _ => 0
    done := fun _ => false
    gseq := [] }

/-- One loop iteration of sum_dynamic by thread w: under counter_lock, if
counter > 0 then decrement it and take count_copy = the decremented value as
the claimed row; otherwise set done.  If a row was claimed, add row
count_copy into sum[w] and increment tcount[w]. -/
def dynStep (work : Nat → Nat → Nat) {n : Nat} (s : DynState n) (w : Fin n) :
    DynState n :=
  if s.done w then s
  else if 0 < s.counter then
    { counter := s.counter - 1
      tcount := Function.update s.tcount w (s.tcount w + 1)
      sum := Function.update s.sum w (rowSum work (s.counter - 1).toNat (s.sum w))
      done := s.done
      gseq := (w.val, (s.counter - 1).toNat) :: s.gseq }
  else
    { s with done := Function.update s.done w true }

/-- State after the scheduled interleaving sched starting from the initial
state. -/
def dynRun (work : Nat → Nat → Nat) (n : Nat) (sched : List (Fin n)) :
    DynState n :=
  sched.foldl (dynStep work) (dynInit n)

/-- Every thread's loop has ended. -/
def DynDone {n : Nat} (s : DynState n) : Prop := ∀ w, s.done w = true

/-- Rows claimed by thread w, in the order the thread claimed them. -/
def rowsOfW {n : Nat} (s : DynState n) (w : Fin n) : List Nat :=
  ((s.gseq.filter (fun p => p.1 = w.val)).map Prod.snd).reverse

/-- Rows handed out by successive successful claims, in global
counter_lock acquisition order. -/
def claimSeq {n : Nat} (s : DynState n) : List Nat :=
  (s.gseq.map Prod.snd).reverse

/-- total_work accumulated in main after joining the dynamic threads. -/
def dynTotal {n : Nat} (s : DynState n) : Nat :=
  ((List.finRange n).map s.tcount).sum

/-- gross_sum accumulated in main: uint64_t fold over the sum vector. -/
def dynGross {n : Nat} (s : DynState n) : Nat :=
  ((List.finRange n).map s.sum).foldl add64 0

/-- Run invariant of the dynamic scheduler. -/
structure DynInv (work : Nat → Nat → Nat) {n : Nat} (s : DynState n) : Prop where
  nonneg : 0 ≤ s.counter
  le_rows : s.counter ≤ (rows : Int)
  gseq_rows : s.gseq.map Prod.snd =
    List.range' s.counter.toNat (rows - s.counter.toNat)
  fst_lt : ∀ p ∈ s.gseq, p.1 < n
  done_zero : ∀ w, s.done w = true → s.counter = 0
  tc : ∀ w, s.tcount w = (s.gseq.filter (fun p => p.1 = w.val)).length
  sm : ∀ w, s.sum w = wsum work (rowsOfW s w) 0

theorem dynInv_init (work : Nat → Nat → Nat) (n : Nat) :
    DynInv work (dynInit n) := by
  constructor
  · exact Int.natCast_nonneg rows
  · exact le_refl _
  · simp [dynInit]
  · intro p hp; simp [dynInit] at hp
  · intro w hw; simp [dynInit] at hw
  · intro w; simp [dynInit]
  · intro w; simp [dynInit, rowsOfW, wsum]

theorem range'_cons_pred {c k : Nat} (hc : 0 < c) :
    (c - 1) :: List.range' c k = List.range' (c - 1) (k + 1) := by
  have h1 : c - 1 + 1 = c := by omega
  rw [List.range'_succ, h1]

theorem filter_fst_cons_self (g : List (Nat × Nat)) (w r : Nat) :
    ((w, r) :: g).filter (fun p => p.1 = w) = (w, r) :: g.filter (fun p => p.1 = w) := by
  simp

theorem filter_fst_cons_ne (g : List (Nat × Nat)) {v w : Nat} (h : v ≠ w) (r : Nat) :
    ((v, r) :: g).filter (fun p => p.1 = w) = g.filter (fun p => p.1 = w) := by
  simp [h]

theorem wsum_append_single (work : Nat → Nat → Nat) (l : List Nat) (r acc : Nat) :
    wsum work (l ++ [r]) acc = rowSum work r (wsum work l acc) := by
  simp [wsum, List.foldl_append]

theorem dynInv_step (work : Nat → Nat → Nat) {n : Nat} (s : DynState n)
    (w : Fin n) (h : DynInv work s) : DynInv work (dynStep work s w) := by
  by_cases hd : s.done w
  · simpa [dynStep, hd] using h
  · by_cases hc : 0 < s.counter
    · have hstep : dynStep work s w =
          { counter := s.counter - 1
            tcount := Function.update s.tcount w (s.tcount w + 1)
            sum := Function.update s.sum w
              (rowSum work (s.counter - 1).toNat (s.sum w))
            done := s.done
            gseq := (w.val, (s.counter - 1).toNat) :: s.gseq } := by
        simp [dynStep, hd, hc]
      rw [hstep]
      have hct : s.counter.toNat = (s.counter - 1).toNat + 1 := by omega
      have hle : s.counter.toNat ≤ rows := by
        have := h.le_rows
        omega
      constructor
      · simp only
        omega
      · simp only
        have := h.le_rows
        omega
      · simp only [List.map_cons, h.gseq_rows]
        have h1 : (s.counter - 1).toNat = s.counter.toNat - 1 := by omega
        rw [h1]
        rw [range'_cons_pred (by omega)]
        congr 1
        omega
      · intro p hp
        rcases List.mem_cons.mp hp with rfl | hp2
        · exact w.isLt
        · exact h.fst_lt p hp2
      · intro w' hw'
        exact absurd (h.done_zero w' hw') (by omega)
      · intro w'
        by_cases hww : w' = w
        · subst hww
          show Function.update s.tcount w' (s.tcount w' + 1) w' =
            (((w'.val, (s.counter - 1).toNat) :: s.gseq).filter
              (fun p => p.1 = w'.val)).length
          rw [Function.update_same, filter_fst_cons_self, List.length_cons,
            h.tc w']
        · have hvv : w.val ≠ w'.val := fun hv => hww (Fin.ext hv.symm)
          show Function.update s.tcount w (s.tcount w + 1) w' =
            (((w.val, (s.counter - 1).toNat) :: s.gseq).filter
              (fun p => p.1 = w'.val)).length
          rw [Function.update_noteq hww, filter_fst_cons_ne s.gseq hvv]
          exact h.tc w'
      · intro w'
        by_cases hww : w' = w
        · subst hww
          show Function.update s.sum w'
              (rowSum work (s.counter - 1).toNat (s.sum w')) w' =
            wsum work (rowsOfW
              { counter := s.counter - 1
                tcount := Function.update s.tcount w' (s.tcount w' + 1)
                sum := Function.update s.sum w'
                  (rowSum work (s.counter - 1).toNat (s.sum w'))
                done := s.done
                gseq := (w'.val, (s.counter - 1).toNat) :: s.gseq } w') 0
          rw [Function.update_same]
          have hrw : rowsOfW
              { counter := s.counter - 1
                tcount := Function.update s.tcount w' (s.tcount w' + 1)
                sum := Function.update s.sum w'
                  (rowSum work (s.counter - 1).toNat (s.sum w'))
                done := s.done
                gseq := (w'.val, (s.counter - 1).toNat) :: s.gseq } w' =
              rowsOfW s w' ++ [(s.counter - 1).toNat] := by
            show (((((w'.val, (s.counter - 1).toNat) :: s.gseq)).filter
              (fun p => p.1 = w'.val)).map Prod.snd).reverse =
              rowsOfW s w' ++ [(s.counter - 1).toNat]
            rw [filter_fst_cons_self, List.map_cons, List.reverse_cons]
            rfl
          rw [hrw, wsum_append_single, h.sm w']
        · have hvv : w.val ≠ w'.val := fun hv => hww (Fin.ext hv.symm)
          show Function.update s.sum w
              (rowSum work (s.counter - 1).toNat (s.sum w)) w' =
            wsum work (rowsOfW
              { counter := s.counter - 1
                tcount := Function.update s.tcount w (s.tcount w + 1)
                sum := Function.update s.sum w
                  (rowSum work (s.counter - 1).toNat (s.sum w))
                done := s.done
                gseq := (w.val, (s.counter - 1).toNat) :: s.gseq } w') 0
          rw [Function.update_noteq hww]
          have hrw : rowsOfW
              { counter := s.counter - 1
                tcount := Function.update s.tcount w (s.tcount w + 1)
                sum := Function.update s.sum w
                  (rowSum work (s.counter - 1).toNat (s.sum w))
                done := s.done
                gseq := (w.val, (s.counter - 1).toNat) :: s.gseq } w' =
              rowsOfW s w' := by
            show (((((w.val, (s.counter - 1).toNat) :: s.gseq)).filter
              (fun p => p.1 = w'.val)).map Prod.snd).reverse = rowsOfW s w'
            rw [filter_fst_cons_ne s.gseq hvv]
            rfl
          rw [hrw, h.sm w']
    · have hstep : dynStep work s w =
          { s with done := Function.update s.done w true } := by
        simp [dynStep, hd, hc]
      rw [hstep]
      constructor
      · exact h.nonneg
      · exact h.le_rows
      · exact h.gseq_rows
      · exact h.fst_lt
      · intro w' hw'
        by_cases hww : w' = w
        · show s.counter = 0
          have := h.nonneg
          omega
        · have hw2 : Function.update s.done w true w' = true := hw'
          rw [Function.update_noteq hww] at hw2
          show s.counter = 0
          exact h.done_zero w' hw2
      · exact h.tc
      · exact h.sm

theorem dynInv_foldl (work : Nat → Nat → Nat) {n : Nat} :
    ∀ (sched : List (Fin n)) (s : DynState n), DynInv work s →
      DynInv work (sched.foldl (dynStep work) s) := by
  intro sched
  induction sched with
  | nil => intro s h; exact h
  | cons w sched ih =>
    intro s h
    exact ih (dynStep work s w) (dynInv_step work s w h)

theorem dynRun_inv (work : Nat → Nat → Nat) {n : Nat} (sched : List (Fin n)) :
    DynInv work (dynRun work n sched) :=
  dynInv_foldl work sched (dynInit n) (dynInv_init work n)

/-! ## Done flags are permanent, and completing schedules exist -/

theorem dynStep_done_mono (work : Nat → Nat → Nat) {n : Nat}
    (s : DynState n) (w v : Fin n) (h : s.done v = true) :
    (dynStep work s w).done v = true := by
  by_cases hd : s.done w
  · simp [dynStep, hd, h]
  · by_cases hc : 0 < s.counter
    · simp [dynStep, hd, hc, h]
    · simp only [dynStep, hd, if_false, hc, Bool.false_eq_true]
      show Function.update s.done w true v = true
      by_cases hv : v = w
      · subst hv; rw [Function.update_same]
      · rw [Function.update_noteq hv]; exact h

theorem dynFoldl_done_mono (work : Nat → Nat → Nat) {n : Nat} :
    ∀ (sched : List (Fin n)) (s : DynState n) (v : Fin n),
      s.done v = true → (sched.foldl (dynStep work) s).done v = true := by
  intro sched
  induction sched with
  | nil => intro s v h; exact h
  | cons w sched ih =>
    intro s v h
    exact ih (dynStep work s w) v (dynStep_done_mono work s w v h)

theorem dynStep_counter_le (work : Nat → Nat → Nat) {n : Nat}
    (s : DynState n) (w : Fin n) : (dynStep work s w).counter ≤ s.counter := by
  by_cases hd : s.done w
  · simp [dynStep, hd]
  · by_cases hc : 0 < s.counter
    · simp only [dynStep, hd, if_false, hc, if_true, Bool.false_eq_true]
      show s.counter - 1 ≤ s.counter
      omega
    · simp only [dynStep, hd, if_false, hc, Bool.false_eq_true]
      show s.counter ≤ s.counter
      exact le_refl _

theorem dynStep_done_self_of_nonpos (work : Nat → Nat → Nat) {n : Nat}
    (s : DynState n) (w : Fin n) (hc : s.counter ≤ 0) :
    (dynStep work s w).done w = true := by
  by_cases hd : s.done w
  · simp only [dynStep, hd, if_true]
  · have hc2 : ¬ 0 < s.counter := by omega
    simp only [dynStep, hd, if_false, hc2, Bool.false_eq_true]
    show Function.update s.done w true w = true
    rw [Function.update_same]

theorem dynFoldl_done_of_mem (work : Nat → Nat → Nat) {n : Nat} :
    ∀ (sched : List (Fin n)) (s : DynState n) (w : Fin n),
      s.counter ≤ 0 → w ∈ sched →
      (sched.foldl (dynStep work) s).done w = true := by
  intro sched
  induction sched with
  | nil => intro s w _ hmem; cases hmem
  | cons v sched ih =>
    intro s w hc hmem
    by_cases hvw : v = w
    · subst hvw
      exact dynFoldl_done_mono work sched (dynStep work s v) v
        (dynStep_done_self_of_nonpos work s v hc)
    · rcases List.mem_cons.mp hmem with rfl | hmem2
      · exact absurd rfl hvw
      · have hc2 : (dynStep work s v).counter ≤ 0 :=
          le_trans (dynStep_counter_le work s v) hc
        exact ih (dynStep work s v) w hc2 hmem2

theorem dynReplicate_done (work : Nat → Nat → Nat) {n : Nat} (w : Fin n) :
    ∀ (k : Nat) (s : DynState n), 0 ≤ s.counter → s.counter < (k : Int) →
      ((List.replicate k w).foldl (dynStep work) s).done w = true := by
  intro k
  induction k with
  | zero => intro s h0 hk; omega
  | succ k ih =>
    intro s h0 hk
    rw [List.replicate_succ, List.foldl_cons]
    by_cases hd : s.done w
    · refine dynFoldl_done_mono work _ (dynStep work s w) w ?_
      simp only [dynStep, hd, if_true]
    · by_cases hc : 0 < s.counter
      · have hstep : dynStep work s w =
            { counter := s.counter - 1
              tcount := Function.update s.tcount w (s.tcount w + 1)
              sum := Function.update s.sum w
                (rowSum work (s.counter - 1).toNat (s.sum w))
              done := s.done
              gseq := (w.val, (s.counter - 1).toNat) :: s.gseq } := by
          simp [dynStep, hd, hc]
        refine ih (dynStep work s w) ?_ ?_
        · rw [hstep]; show (0 : Int) ≤ s.counter - 1; omega
        · rw [hstep]; show s.counter - 1 < (k : Int)
          push_cast at hk ⊢
          omega
      · exact dynFoldl_done_mono work _ (dynStep work s w) w
          (dynStep_done_self_of_nonpos work s w (by omega))

/-- A schedule on which every thread finishes: thread 0 alone claims all the
rows and then observes the empty pool, after which each thread takes one
turn and observes the empty pool. -/
def dynSched (n : Nat) (h : 0 < n) : List (Fin n) :=
  List.replicate (rows + 1) ⟨0, h⟩ ++ List.finRange n

theorem dynSched_done (work : Nat → Nat → Nat) {n : Nat} (h : 0 < n) :
    DynDone (dynRun work n (dynSched n h)) := by
  intro w
  unfold dynRun dynSched
  rw [List.foldl_append]
  have h1 : ((List.replicate (rows + 1) (⟨0, h⟩ : Fin n)).foldl
      (dynStep work) (dynInit n)).done ⟨0, h⟩ = true := by
    refine dynReplicate_done work ⟨0, h⟩ (rows + 1) (dynInit n) ?_ ?_
    · show (0 : Int) ≤ (rows : Int)
      omega
    · show (rows : Int) < ((rows + 1 : Nat) : Int)
      push_cast
      omega
  have hinv : DynInv work ((List.replicate (rows + 1) (⟨0, h⟩ : Fin n)).foldl
      (dynStep work) (dynInit n)) :=
    dynInv_foldl work _ (dynInit n) (dynInv_init work n)
  have hzero := hinv.done_zero ⟨0, h⟩ h1
  exact dynFoldl_done_of_mem work (List.finRange n) _ w (by omega)
    (List.mem_finRange w)

/-! ## Aggregating a completed dynamic run -/

theorem sum_map_add_nat {α : Type} (f g : α → Nat) :
    ∀ l : List α,
      (l.map (fun x => f x + g x)).sum = (l.map f).sum + (l.map g).sum := by
  intro l
  induction l with
  | nil => simp
  | cons a l ih =>
    simp only [List.map_cons, List.sum_cons, ih]
    omega

theorem sum_ite_of_not_mem {α : Type} [DecidableEq α] (v : α) (c : Nat) :
    ∀ l : List α, v ∉ l →
      (l.map (fun w => if w = v then c else 0)).sum = 0 := by
  intro l
  induction l with
  | nil => intro _; simp
  | cons a l ih =>
    intro h
    have ha : a ≠ v := fun hav => h (by rw [← hav]; exact List.mem_cons_self a l)
    simp only [List.map_cons, List.sum_cons, if_neg ha]
    rw [ih (fun hm => h (List.mem_cons_of_mem a hm))]

theorem sum_ite_of_nodup_mem {α : Type} [DecidableEq α] (v : α) (c : Nat) :
    ∀ l : List α, l.Nodup → v ∈ l →
      (l.map (fun w => if w = v then c else 0)).sum = c := by
  intro l
  induction l with
  | nil => intro _ h; cases h
  | cons a l ih =>
    intro hnd hmem
    by_cases hav : a = v
    · subst hav
      simp only [List.map_cons, List.sum_cons, if_pos rfl]
      rw [sum_ite_of_not_mem a c l (List.nodup_cons.mp hnd).1]
      simp
    · have hm : v ∈ l := by
        rcases List.mem_cons.mp hmem with h1 | h2
        · exact absurd h1.symm hav
        · exact h2
      simp only [List.map_cons, List.sum_cons, if_neg hav]
      rw [ih (List.nodup_cons.mp hnd).2 hm]
      omega

/-- Splitting a sum over the claim log by the claiming thread: summing f over
the per-thread filtered logs, over all threads, equals summing f over the
whole log. -/
theorem sum_filter_fst_map {n : Nat} (f : Nat × Nat → Nat) :
    ∀ g : List (Nat × Nat), (∀ p ∈ g, p.1 < n) →
      ((List.finRange n).map
        (fun w : Fin n => ((g.filter (fun p => p.1 = w.val)).map f).sum)).sum
        = (g.map f).sum := by
  intro g
  induction g with
  | nil => intro _; simp
  | cons p g ih =>
    intro hb
    have hbg : ∀ q ∈ g, q.1 < n := fun q hq => hb q (List.mem_cons_of_mem p hq)
    have hp : p.1 < n := hb p (List.mem_cons_self p g)
    have hmapeq : (List.finRange n).map
        (fun w : Fin n => (((p :: g).filter (fun q => q.1 = w.val)).map f).sum) =
        (List.finRange n).map
        (fun w : Fin n => (if w = ⟨p.1, hp⟩ then f p else 0) +
          ((g.filter (fun q => q.1 = w.val)).map f).sum) := by
      refine List.map_congr_left (fun w _ => ?_)
      by_cases hw : p.1 = w.val
      · have hfil : (p :: g).filter (fun q => q.1 = w.val) =
            p :: g.filter (fun q => q.1 = w.val) := by
          rw [List.filter_cons_of_pos]
          simp [hw]
        have hite : (if w = ⟨p.1, hp⟩ then f p else 0) = f p :=
          if_pos (Fin.ext hw.symm)
        rw [hfil, List.map_cons, List.sum_cons, hite]
      · have hfil : (p :: g).filter (fun q => q.1 = w.val) =
            g.filter (fun q => q.1 = w.val) := by
          rw [List.filter_cons_of_neg]
          simp [hw]
        have hne : w ≠ ⟨p.1, hp⟩ :=
          fun he => hw (congrArg Fin.val he).symm
        rw [hfil, if_neg hne]
        omega
    rw [hmapeq, sum_map_add_nat]
    rw [sum_ite_of_nodup_mem (⟨p.1, hp⟩ : Fin n) (f p) (List.finRange n)
      (List.nodup_finRange n) (List.mem_finRange _)]
    rw [ih hbg]
    simp only [List.map_cons, List.sum_cons]

theorem sum_map_const_one {α : Type} :
    ∀ l : List α, (l.map (fun _ => (1 : Nat))).sum = l.length := by
  intro l
  induction l with
  | nil => simp
  | cons a l ih =>
    simp only [List.map_cons, List.sum_cons, List.length_cons, ih]
    omega

theorem sublist_sum_le : ∀ {l₁ l₂ : List Nat}, l₁.Sublist l₂ → l₁.sum ≤ l₂.sum := by
  intro l₁ l₂ h
  induction h with
  | slnil => exact le_refl 0
  | cons a h ih => simp only [List.sum_cons]; omega
  | cons₂ a h ih => simp only [List.sum_cons]; omega

theorem dynRun_counter_zero (work : Nat → Nat → Nat) {n : Nat} (hn : 0 < n)
    (sched : List (Fin n)) (hdone : DynDone (dynRun work n sched)) :
    (dynRun work n sched).counter = 0 :=
  (dynRun_inv work sched).done_zero ⟨0, hn⟩ (hdone ⟨0, hn⟩)

theorem dynRun_gseq_snd (work : Nat → Nat → Nat) {n : Nat} (hn : 0 < n)
    (sched : List (Fin n)) (hdone : DynDone (dynRun work n sched)) :
    (dynRun work n sched).gseq.map Prod.snd = List.range rows := by
  have h := (dynRun_inv work sched).gseq_rows
  rw [dynRun_counter_zero work hn sched hdone] at h
  simpa [List.range_eq_range'] using h

theorem dynRun_gseq_length (work : Nat → Nat → Nat) {n : Nat} (hn : 0 < n)
    (sched : List (Fin n)) (hdone : DynDone (dynRun work n sched)) :
    (dynRun work n sched).gseq.length = rows := by
  have h := congrArg List.length (dynRun_gseq_snd work hn sched hdone)
  simpa using h

theorem dyn_total_eq (work : Nat → Nat → Nat) {n : Nat} (hn : 0 < n)
    (sched : List (Fin n)) (hdone : DynDone (dynRun work n sched)) :
    dynTotal (dynRun work n sched) = rows := by
  have hinv := dynRun_inv work sched
  unfold dynTotal
  have h1 : (List.finRange n).map (dynRun work n sched).tcount =
      (List.finRange n).map (fun w : Fin n =>
        (((dynRun work n sched).gseq.filter (fun p => p.1 = w.val)).map
          (fun _ => (1 : Nat))).sum) := by
    refine List.map_congr_left (fun w _ => ?_)
    rw [hinv.tc w, sum_map_const_one]
  rw [h1, sum_filter_fst_map (fun _ => (1 : Nat)) _ hinv.fst_lt,
    sum_map_const_one, dynRun_gseq_length work hn sched hdone]

theorem dyn_wsum_le (work : Nat → Nat → Nat) {n : Nat} (hn : 0 < n)
    (sched : List (Fin n)) (hdone : DynDone (dynRun work n sched)) (w : Fin n) :
    ((rowsOfW (dynRun work n sched) w).map (rowSumExact work)).sum ≤
      refSum work := by
  unfold rowsOfW
  rw [List.map_reverse, List.sum_reverse]
  have hsub : ((((dynRun work n sched).gseq.filter
        (fun p => p.1 = w.val)).map Prod.snd).map (rowSumExact work)).Sublist
      ((((dynRun work n sched).gseq).map Prod.snd).map (rowSumExact work)) :=
    ((List.filter_sublist _).map Prod.snd).map (rowSumExact work)
  rw [dynRun_gseq_snd work hn sched hdone] at hsub
  exact sublist_sum_le hsub

theorem dyn_sum_exact (work : Nat → Nat → Nat) {n : Nat} (hn : 0 < n)
    (hB : ElemBound work) (sched : List (Fin n))
    (hdone : DynDone (dynRun work n sched)) (w : Fin n) :
    (dynRun work n sched).sum w =
      ((rowsOfW (dynRun work n sched) w).map (rowSumExact work)).sum := by
  rw [(dynRun_inv work sched).sm w]
  have hb : 0 + ((rowsOfW (dynRun work n sched) w).map (rowSumExact work)).sum
      < 2 ^ 64 := by
    have h1 := dyn_wsum_le work hn sched hdone w
    have h2 := refSum_lt hB
    have h3 : (2 : Nat) ^ 48 < 2 ^ 64 := by norm_num
    omega
  rw [wsum_exact work _ 0 hb]
  omega

theorem dyn_gross_eq (work : Nat → Nat → Nat) {n : Nat} (hn : 0 < n)
    (hB : ElemBound work) (sched : List (Fin n))
    (hdone : DynDone (dynRun work n sched)) :
    dynGross (dynRun work n sched) = refSum work := by
  unfold dynGross
  have h1 : (List.finRange n).map (dynRun work n sched).sum =
      (List.finRange n).map (fun w : Fin n =>
        (((dynRun work n sched).gseq.filter (fun p => p.1 = w.val)).map
          (fun p => rowSumExact work p.2)).sum) := by
    refine List.map_congr_left (fun w _ => ?_)
    rw [dyn_sum_exact work hn hB sched hdone w]
    unfold rowsOfW
    rw [List.map_reverse, List.sum_reverse, List.map_map]
    rfl
  have hpart := sum_filter_fst_map (fun p => rowSumExact work p.2)
    (dynRun work n sched).gseq (dynRun_inv work sched).fst_lt
  have hg : ((dynRun work n sched).gseq.map
      (fun p => rowSumExact work p.2)).sum = refSum work := by
    have hmm : (dynRun work n sched).gseq.map (fun p => rowSumExact work p.2) =
        ((dynRun work n sched).gseq.map Prod.snd).map (rowSumExact work) := by
      rw [List.map_map]
      rfl
    rw [hmm, dynRun_gseq_snd work hn sched hdone]
    rfl
  have hbound : 0 + ((List.finRange n).map (fun w : Fin n =>
      (((dynRun work n sched).gseq.filter (fun p => p.1 = w.val)).map
        (fun p => rowSumExact work p.2)).sum)).sum < 2 ^ 64 := by
    have h2 := refSum_lt hB
    have h3 : (2 : Nat) ^ 48 < 2 ^ 64 := by norm_num
    omega
  rw [h1, foldl_add64_id _ 0 hbound, hpart, hg]
  omega

/-! ## Interleaved semantics of static mode (for determinism)

In static mode the threads share no mutable state: each thread only reads
the matrix and writes its own slots.  We model an interleaved run by a
schedule of thread ids exactly as for dynamic mode and prove that the final
per-thread results do not depend on the schedule. -/

/-- Global state of a static-mode run with n threads: each thread's loop
variable i, and its slots of the tcount and sum vectors. -/
structure StState (n : Nat) where
  idx : Fin n → Nat
  tcount : Fin n → Nat
  sum : Fin n → Nat

/-- Initial static state: i = tid for each thread, vectors zero. -/
def stInit (n : Nat) : StState n :=
  { idx := fun w => w.val, tcount := fun _ => 0, sum := fun _ => 0 }

/-- One loop iteration of sum_static by thread w under the interleaving
semantics: if i < rows, add row i into sum[w], increment tcount[w], advance
i by the stride n; otherwise the thread has already exited its loop. -/
def stStep (work : Nat → Nat → Nat) {n : Nat} (s : StState n) (w : Fin n) :
    StState n :=
  if s.idx w < rows then
    { idx := Function.update s.idx w (s.idx w + n)
      tcount := Function.update s.tcount w (s.tcount w + 1)
      sum := Function.update s.sum w (rowSum work (s.idx w) (s.sum w)) }
  else s

/-- State after the scheduled interleaving sched from the initial state. -/
def stRun (work : Nat → Nat → Nat) (n : Nat) (sched : List (Fin n)) :
    StState n :=
  sched.foldl (stStep work) (stInit n)

/-- Every thread's while loop has exited. -/
def StDone {n : Nat} (s : StState n) : Prop := ∀ w, rows ≤ s.idx w

/-- Thread w's private state as a loop-state triple. -/
def stTriple {n : Nat} (s : StState n) (w : Fin n) : Nat × Nat × Nat :=
  (s.idx w, s.tcount w, s.sum w)

theorem stStep_triple_self (work : Nat → Nat → Nat) {n : Nat}
    (s : StState n) (w : Fin n) :
    stTriple (stStep work s w) w = stepOnce work n (stTriple s w) := by
  by_cases h : s.idx w < rows
  · simp [stStep, stTriple, stepOnce, h]
  · simp [stStep, stTriple, stepOnce, h]

theorem stStep_triple_other (work : Nat → Nat → Nat) {n : Nat}
    (s : StState n) {w v : Fin n} (hvw : v ≠ w) :
    stTriple (stStep work s w) v = stTriple s v := by
  by_cases h : s.idx w < rows
  · simp [stStep, stTriple, h, Function.update_noteq hvw]
  · simp [stStep, stTriple, h]

theorem stRun_triple (work : Nat → Nat → Nat) {n : Nat} :
    ∀ (sched : List (Fin n)) (s : StState n) (w : Fin n),
      stTriple (sched.foldl (stStep work) s) w =
        stepIter work n (sched.count w) (stTriple s w) := by
  intro sched
  induction sched with
  | nil => intro s w; rfl
  | cons v sched ih =>
    intro s w
    rw [List.foldl_cons, ih (stStep work s v) w]
    by_cases hvw : v = w
    · subst hvw
      rw [stStep_triple_self work s v]
      have hcount : (v :: sched).count v = sched.count v + 1 := by
        simp [List.count_cons]
      rw [hcount]
      rfl
    · rw [stStep_triple_other work s (fun he => hvw he.symm)]
      have hcount : (v :: sched).count w = sched.count w := by
        simp [List.count_cons, hvw]
      rw [hcount]

theorem stTriple_init {n : Nat} (w : Fin n) :
    stTriple (stInit n) w = (w.val, 0, 0) := rfl

theorem stRun_triple_of_done (work : Nat → Nat → Nat) {n : Nat}
    (sched : List (Fin n)) (hdone : StDone (stRun work n sched)) (w : Fin n) :
    stTriple (stRun work n sched) w = staticWorker work n w.val := by
  have ht : stTriple (stRun work n sched) w =
      stepIter work n (sched.count w) (stTriple (stInit n) w) :=
    stRun_triple work sched (stInit n) w
  rw [stTriple_init] at ht
  have hidx : (stTriple (stRun work n sched) w).1 = (stRun work n sched).idx w := rfl
  have hfin1 : rows ≤ (stepIter work n (sched.count w) (w.val, 0, 0)).1 := by
    rw [← ht, hidx]
    exact hdone w
  have hfin2 : rows ≤ (stepIter work n rows (w.val, 0, 0)).1 := by
    have h := stepIter_idx_ge work w.pos rows ((w.val : Nat), (0 : Nat), (0 : Nat))
    have h2 : ((w.val : Nat), (0 : Nat), (0 : Nat)).1 = w.val := rfl
    rw [h2] at h
    omega
  have hsw : staticWorker work n w.val = stepIter work n rows (w.val, 0, 0) := by
    unfold staticWorker
    exact staticLoop_eq_stepIter work n rows (w.val, 0, 0)
  rcases le_total (sched.count w) rows with hle | hle
  · rw [ht, hsw, stepIter_stable work n (w.val, 0, 0) hfin1 hle]
  · rw [ht, hsw, stepIter_stable work n (w.val, 0, 0) hfin2 hle]

/-! ## A completing static schedule -/

theorem count_flatMap_replicate {n : Nat} (w : Fin n) :
    ∀ l : List (Fin n),
      ((l.flatMap (fun v => List.replicate rows v)).count w) = rows * l.count w := by
  intro l
  induction l with
  | nil => simp
  | cons v l ih =>
    rw [List.flatMap_cons, List.count_append, ih, List.count_cons]
    rw [List.count_replicate]
    by_cases hvw : v = w
    · subst hvw
      simp only [beq_self_eq_true, if_true]
      ring
    · have h2 : (v == w) = false := by
        simp only [beq_eq_false_iff_ne, ne_eq]
        exact hvw
      rw [h2]
      simp

/-- A schedule on which every static thread finishes: each thread in turn
performs rows iterations. -/
def stSched (n : Nat) : List (Fin n) :=
  (List.finRange n).flatMap (fun v => List.replicate rows v)

theorem stSched_count {n : Nat} (w : Fin n) : (stSched n).count w = rows := by
  unfold stSched
  rw [count_flatMap_replicate]
  rw [List.count_eq_one_of_mem (List.nodup_finRange n) (List.mem_finRange w)]
  rw [Nat.mul_one]

theorem stSched_done (work : Nat → Nat → Nat) {n : Nat} :
    StDone (stRun work n (stSched n)) := by
  intro w
  have ht : stTriple (stRun work n (stSched n)) w =
      stepIter work n ((stSched n).count w) (stTriple (stInit n) w) :=
    stRun_triple work (stSched n) (stInit n) w
  rw [stTriple_init, stSched_count] at ht
  have hidx : (stTriple (stRun work n (stSched n)) w).1 =
    (stRun work n (stSched n)).idx w := rfl
  have h := stepIter_idx_ge work w.pos rows ((w.val : Nat), (0 : Nat), (0 : Nat))
  have h2 : ((w.val : Nat), (0 : Nat), (0 : Nat)).1 = w.val := rfl
  rw [h2] at h
  rw [← hidx, ht]
  omega

theorem stStep_idx_mono (work : Nat → Nat → Nat) {n : Nat}
    (s : StState n) (w v : Fin n) : s.idx v ≤ (stStep work s w).idx v := by
  by_cases h : s.idx w < rows
  · simp only [stStep, if_pos h]
    by_cases hvw : v = w
    · subst hvw
      rw [Function.update_same]
      omega
    · rw [Function.update_noteq hvw]
  · simp only [stStep, if_neg h]
    exact le_refl _

theorem stFoldl_done_mono (work : Nat → Nat → Nat) {n : Nat} :
    ∀ (sched : List (Fin n)) (s : StState n), StDone s →
      StDone (sched.foldl (stStep work) s) := by
  intro sched
  induction sched with
  | nil => intro s h; exact h
  | cons v sched ih =>
    intro s h
    refine ih (stStep work s v) (fun w => ?_)
    exact le_trans (h w) (stStep_idx_mono work s v w)

/-! ## Command-line handling in main (reduce.cpp lines 134-218)

getopt with option string dt: classifies each option on the command line as
-d, as -t with its argument, or as an unrecognized option (getopt returns
the question-mark character and main sets dflag = -1 and prints usage).
The getopt loop is modelled as a fold over that stream of classified
options; the command line -x -d, for example, yields the stream
[Opt.unk, Opt.d]. -/

inductive Opt where
  | d : Opt
  | t : String → Opt
  | unk : Opt
deriving DecidableEq

/-- Parser state over the getopt loop: dflag (0 initially, 1 after -d, -1
after an unrecognized option), n_threads (C unsigned int, default 2), and
the number of usage messages printed to std::cerr. -/
structure ParseSt where
  dflag : Int
  nThreads : Nat
  usage : Nat
deriving DecidableEq

/-- Value of a maximal leading run of decimal digits (0 if none). -/
def atoiDigits (cs : List Char) : Nat :=
  (cs.takeWhile Char.isDigit).foldl (fun a c => 10 * a + (c.toNat - 48)) 0

/-- C library atoi: skip leading whitespace, optional sign, then a maximal
run of decimal digits; yields 0 when there are no digits. -/
def atoi (s : String) : Int :=
  match s.toList.dropWhile Char.isWhitespace with
  | '-' :: rest => -(atoiDigits rest : Int)
  | '+' :: rest => (atoiDigits rest : Int)
  | cs => (atoiDigits cs : Int)

/-- Conversion of the int returned by atoi to the unsigned int n_threads
(two's-complement reduction mod 2^32). -/
def u32 (x : Int) : Nat := (x % (2 ^ 32 : Int)).toNat

/-- One iteration of the getopt switch, with hc =
std::thread::hardware_concurrency(): case d sets dflag = 1; case t parses
optarg with atoi into the unsigned n_threads and clamps it to hc only when
it exceeds hc; the unrecognized-option case sets dflag = -1 and prints the
usage message to std::cerr. -/
def procOpt (hc : Nat) (st : ParseSt) : Opt → ParseSt
  | Opt.d => { st with dflag := 1 }
  | Opt.t s =>
    { st with nThreads := if hc < u32 (atoi s) then hc else u32 (atoi s) }
  | Opt.unk => { st with dflag := -1, usage := st.usage + 1 }

def parseInit : ParseSt := { dflag := 0, nThreads := 2, usage := 0 }

/-- Parser state after the whole getopt loop. -/
def procOpts (hc : Nat) (opts : List Opt) : ParseSt :=
  opts.foldl (procOpt hc) parseInit

/-- Configuration-level result of a whole run of main: none when the
computation block is skipped (dflag == -1): no threads spawned, no sum
printed; otherwise the selected mode (true = dynamic) and the thread
count. -/
def mainRun (hc : Nat) (opts : List Opt) : Option (Bool × Nat) :=
  if (procOpts hc opts).dflag = -1 then none
  else some (decide ((procOpts hc opts).dflag = 1), (procOpts hc opts).nThreads)

/-- Exit status of main: the single return statement returns 0 on every
path. -/
def mainExit (_hc : Nat) (_opts : List Opt) : Nat := 0

/-- Last-writer-wins fold step over an option stream. -/
def updOpt {β : Type} (g : Opt → Option β) (a : Option β) (o : Opt) :
    Option β :=
  match g o with
  | some b => some b
  | none => a

/-- Argument of the last -t option, if any. -/
def lastTArg (opts : List Opt) : Option String :=
  opts.foldl (updOpt (fun o => match o with
    | Opt.t s => some s
    | _ => none)) none

/-- Last event among -d (true) and unrecognized options (false), if any:
this is what the final dflag records. -/
def lastMode (opts : List Opt) : Option Bool :=
  opts.foldl (updOpt (fun o => match o with
    | Opt.d => some true
    | Opt.unk => some false
    | _ => none)) none

theorem foldl_updOpt_shift {β : Type} (g : Opt → Option β) :
    ∀ (opts : List Opt) (acc : Option β),
      opts.foldl (updOpt g) acc =
        match opts.foldl (updOpt g) none with
        | none => acc
        | some b => some b := by
  intro opts
  induction opts with
  | nil => intro acc; rfl
  | cons o opts ih =>
    intro acc
    rw [List.foldl_cons, List.foldl_cons, ih (updOpt g acc o),
      ih (updOpt g none o)]
    cases hopts : opts.foldl (updOpt g) none with
    | some b => rfl
    | none =>
      cases hg : g o with
      | some b => simp [updOpt, hg]
      | none => simp [updOpt, hg]

theorem procOpts_nThreads_general (hc : Nat) :
    ∀ (opts : List Opt) (st : ParseSt),
      (opts.foldl (procOpt hc) st).nThreads =
        match opts.foldl (updOpt (fun o => match o with
            | Opt.t s => some s
            | _ => none)) none with
        | none => st.nThreads
        | some s => if hc < u32 (atoi s) then hc else u32 (atoi s) := by
  intro opts
  induction opts with
  | nil => intro st; rfl
  | cons o opts ih =>
    intro st
    rw [List.foldl_cons, List.foldl_cons, ih (procOpt hc st o),
      foldl_updOpt_shift _ opts (updOpt _ none o)]
    cases hopts : opts.foldl (updOpt (fun o => match o with
        | Opt.t s => some s
        | _ => none)) none with
    | some b => rfl
    | none =>
      cases o with
      | d => rfl
      | t s => rfl
      | unk => rfl

theorem procOpts_dflag_general (hc : Nat) :
    ∀ (opts : List Opt) (st : ParseSt),
      (opts.foldl (procOpt hc) st).dflag =
        match opts.foldl (updOpt (fun o => match o with
            | Opt.d => some true
            | Opt.unk => some false
            | _ => none)) none with
        | none => st.dflag
        | some true => 1
        | some false => -1 := by
  intro opts
  induction opts with
  | nil => intro st; rfl
  | cons o opts ih =>
    intro st
    rw [List.foldl_cons, List.foldl_cons, ih (procOpt hc st o),
      foldl_updOpt_shift _ opts (updOpt _ none o)]
    cases hopts : opts.foldl (updOpt (fun o => match o with
        | Opt.d => some true
        | Opt.unk => some false
        | _ => none)) none with
    | some b => cases b <;> rfl
    | none =>
      cases o with
      | d => rfl
      | t s => rfl
      | unk => rfl

theorem procOpts_usage_general (hc : Nat) :
    ∀ (opts : List Opt) (st : ParseSt),
      (opts.foldl (procOpt hc) st).usage = st.usage + opts.count Opt.unk := by
  intro opts
  induction opts with
  | nil => intro st; simp
  | cons o opts ih =>
    intro st
    rw [List.foldl_cons, ih (procOpt hc st o)]
    cases o with
    | d => simp [procOpt, List.count_cons]
    | t s => simp [procOpt, List.count_cons]
    | unk =>
      simp only [procOpt, List.count_cons]
      simp
      omega

theorem procOpts_nThreads (hc : Nat) (opts : List Opt) :
    (procOpts hc opts).nThreads =
      match lastTArg opts with
      | none => 2
      | some s => if hc < u32 (atoi s) then hc else u32 (atoi s) :=
  procOpts_nThreads_general hc opts parseInit

theorem procOpts_dflag (hc : Nat) (opts : List Opt) :
    (procOpts hc opts).dflag =
      match lastMode opts with
      | none => 0
      | some true => 1
      | some false => -1 :=
  procOpts_dflag_general hc opts parseInit

theorem procOpts_usage (hc : Nat) (opts : List Opt) :
    (procOpts hc opts).usage = opts.count Opt.unk := by
  have h := procOpts_usage_general hc opts parseInit
  simpa [parseInit] using h

/-! ## The claims -/

/-- C1: for every worker count N in {1, 2, 4, 8} and for both scheduling
modes, the gross sum reported at the end of a run (the fold of every
thread's partial sum) equals the reference sum obtained by serially summing
every element work[i][j] of the matrix; matrix entries come from rand() and
are below 2^31. -/
theorem C1_sum_correct (work : Nat → Nat → Nat) (hB : ElemBound work)
    (N : Nat) (hN : N = 1 ∨ N = 2 ∨ N = 4 ∨ N = 8) :
    staticGross work N = refSum work ∧
    ∀ sched : List (Fin N), DynDone (dynRun work N sched) →
      dynGross (dynRun work N sched) = refSum work := by
  have hn : 0 < N := by rcases hN with rfl | rfl | rfl | rfl <;> norm_num
  exact ⟨static_gross_eq work hn hB,
    fun sched hdone => dyn_gross_eq work hn hB sched hdone⟩

theorem C1_sum_correct_witness :
    staticGross (fun _ _ => 0) 1 = refSum (fun _ _ => 0) ∧
    dynGross (dynRun (fun _ _ => 0) 1 (dynSched 1 Nat.one_pos)) =
      refSum (fun _ _ => 0) := by
  have h := C1_sum_correct (fun _ _ => 0) (fun i _ j _ => by norm_num) 1
    (Or.inl rfl)
  exact ⟨h.1, h.2 (dynSched 1 Nat.one_pos) (dynSched_done _ Nat.one_pos)⟩

/-- C2: for every positive worker count N and both modes, the rows processed
across all workers are exactly 0 .. rows-1 with no duplicates and no
omissions, each row going to exactly one worker exactly once; and in dynamic
mode the shared cursor is never negative after any schedule whatsoever. -/
theorem C2_exhaustive (work : Nat → Nat → Nat) (N : Nat) (hn : 0 < N)
    (sched : List (Fin N)) (hdone : DynDone (dynRun work N sched)) :
    (∀ r, r < rows ↔ ∃ w, w < N ∧ r ∈ staticRows w N) ∧
    (∀ r w w', w < N → w' < N → r ∈ staticRows w N → r ∈ staticRows w' N →
      w = w') ∧
    (∀ w, (staticRows w N).Nodup) ∧
    (∀ r, r < rows ↔ r ∈ (dynRun work N sched).gseq.map Prod.snd) ∧
    ((dynRun work N sched).gseq.map Prod.snd).Nodup ∧
    (∀ r, r < rows → ((dynRun work N sched).gseq.map Prod.snd).count r = 1) ∧
    (∀ sched' : List (Fin N), 0 ≤ (dynRun work N sched').counter) := by
  have hsnd := dynRun_gseq_snd work hn sched hdone
  refine ⟨?_, ?_, ?_, ?_, ?_, ?_, ?_⟩
  · intro r
    constructor
    · intro hr
      exact ⟨r % N, Nat.mod_lt r hn, staticRows_mem_of_lt hn hr⟩
    · rintro ⟨w, hw, hmem⟩
      obtain ⟨k, rfl, hlt⟩ := (mem_staticRows hn).mp hmem
      exact hlt
  · intro r w w' hw hw' hm hm'
    rw [staticRows_worker_eq hw hm, staticRows_worker_eq hw' hm']
  · intro w
    exact staticRows_nodup hn
  · intro r
    rw [hsnd, List.mem_range]
  · rw [hsnd]
    exact List.nodup_range rows
  · intro r hr
    rw [hsnd, count_range_eq, if_pos hr]
  · intro sched'
    exact (dynRun_inv work sched').nonneg

theorem C2_exhaustive_witness :
    (∀ r, r < rows ↔ ∃ w, w < 1 ∧ r ∈ staticRows w 1) ∧
    (∀ r w w', w < 1 → w' < 1 →
      r ∈ staticRows w 1 → r ∈ staticRows w' 1 → w = w') ∧
    (∀ w, (staticRows w 1).Nodup) ∧
    (∀ r, r < rows ↔
      r ∈ (dynRun (fun _ _ => 0) 1 (dynSched 1 Nat.one_pos)).gseq.map
        Prod.snd) ∧
    ((dynRun (fun _ _ => 0) 1 (dynSched 1 Nat.one_pos)).gseq.map
      Prod.snd).Nodup ∧
    (∀ r, r < rows →
      ((dynRun (fun _ _ => 0) 1 (dynSched 1 Nat.one_pos)).gseq.map
        Prod.snd).count r = 1) ∧
    (∀ sched' : List (Fin 1),
      0 ≤ (dynRun (fun _ _ => 0) 1 sched').counter) :=
  C2_exhaustive (fun _ _ => 0) 1 Nat.one_pos (dynSched 1 Nat.one_pos)
    (dynSched_done _ Nat.one_pos)

/-- C3: a single claim operation under the cursor lock by a thread whose
loop has not ended: with cursor c > 0 it decrements the cursor and hands the
thread row c - 1 (the pre-decrement value minus one, logged in gseq); with
cursor c = 0 it claims nothing, sets the thread's done flag, and the
thread's claiming loop stays ended through every further schedule. -/
theorem C3_claim (work : Nat → Nat → Nat) {n : Nat} (s : DynState n)
    (w : Fin n) (hw : s.done w = false) :
    (0 < s.counter →
      (dynStep work s w).counter = s.counter - 1 ∧
      (dynStep work s w).gseq = (w.val, (s.counter - 1).toNat) :: s.gseq ∧
      (dynStep work s w).done = s.done) ∧
    (s.counter = 0 →
      (dynStep work s w).done w = true ∧
      (dynStep work s w).counter = s.counter ∧
      (dynStep work s w).gseq = s.gseq ∧
      ∀ sched : List (Fin n),
        (sched.foldl (dynStep work) (dynStep work s w)).done w = true) := by
  have hw2 : ¬ s.done w = true := by rw [hw]; exact Bool.false_ne_true
  constructor
  · intro hc
    have hstep : dynStep work s w =
        { counter := s.counter - 1
          tcount := Function.update s.tcount w (s.tcount w + 1)
          sum := Function.update s.sum w
            (rowSum work (s.counter - 1).toNat (s.sum w))
          done := s.done
          gseq := (w.val, (s.counter - 1).toNat) :: s.gseq } := by
      simp [dynStep, hw2, hc]
    rw [hstep]
    exact ⟨rfl, rfl, rfl⟩
  · intro hc
    have hc2 : ¬ 0 < s.counter := by omega
    have hstep : dynStep work s w =
        { s with done := Function.update s.done w true } := by
      simp [dynStep, hw2, hc2]
    have hdone : (dynStep work s w).done w = true := by
      rw [hstep]
      show Function.update s.done w true w = true
      rw [Function.update_same]
    refine ⟨hdone, ?_, ?_, ?_⟩
    · rw [hstep]
    · rw [hstep]
    · intro sched
      exact dynFoldl_done_mono work sched (dynStep work s w) w hdone

theorem C3_claim_witness :
    (0 < (dynInit 1).counter →
      (dynStep (fun _ _ => 0) (dynInit 1) 0).counter =
        (dynInit 1).counter - 1 ∧
      (dynStep (fun _ _ => 0) (dynInit 1) 0).gseq =
        ((0 : Fin 1).val, ((dynInit 1).counter - 1).toNat) ::
          (dynInit 1).gseq ∧
      (dynStep (fun _ _ => 0) (dynInit 1) 0).done = (dynInit 1).done) ∧
    ((dynInit 1).counter = 0 →
      (dynStep (fun _ _ => 0) (dynInit 1) 0).done 0 = true ∧
      (dynStep (fun _ _ => 0) (dynInit 1) 0).counter = (dynInit 1).counter ∧
      (dynStep (fun _ _ => 0) (dynInit 1) 0).gseq = (dynInit 1).gseq ∧
      ∀ sched : List (Fin 1),
        (sched.foldl (dynStep (fun _ _ => 0))
          (dynStep (fun _ _ => 0) (dynInit 1) 0)).done 0 = true) :=
  C3_claim (fun _ _ => 0) (dynInit 1) 0 rfl

theorem get?_range_map {m k : Nat} (f : Nat → Nat) :
    ((List.range m).map f).get? k = if k < m then some (f k) else none := by
  rw [List.get?_map]
  by_cases h : k < m
  · rw [List.get?_range h, if_pos h]
    rfl
  · rw [if_neg h]
    have hlen : (List.range m).length ≤ k := by
      rw [List.length_range]
      omega
    rw [List.get?_eq_none.mpr hlen]
    rfl

/-- C4: in static mode thread tid with stride N processes exactly the rows
tid, tid+N, tid+2N, ... below rows, in that order, as a pure function of
tid and N; concretely with N = 4 thread 0 processes rows 0, 4, ..., 996
(250 rows), thread 1 rows 1, 5, ..., and so on. -/
theorem C4_static_rows (tid N : Nat) (hN : 0 < N) :
    (∀ k, (staticRows tid N).get? k =
      if tid + k * N < rows then some (tid + k * N) else none) ∧
    staticRows 0 4 = (List.range 250).map (fun k => 0 + k * 4) ∧
    (staticRows 0 4).length = 250 ∧
    staticRows 1 4 = (List.range 250).map (fun k => 1 + k * 4) ∧
    staticRows 2 4 = (List.range 250).map (fun k => 2 + k * 4) ∧
    staticRows 3 4 = (List.range 250).map (fun k => 3 + k * 4) := by
  have hconc : ∀ t, t < 4 →
      staticRows t 4 = (List.range 250).map (fun k => t + k * 4) := by
    intro t ht
    refine List.ext_get? (fun k => ?_)
    rw [staticRows_get? (by norm_num) k, get?_range_map]
    have hiff : t + k * 4 < rows ↔ k < 250 := by
      show t + k * 4 < 1000 ↔ k < 250
      omega
    by_cases h : k < 250
    · rw [if_pos (hiff.mpr h), if_pos h]
    · rw [if_neg (fun hc => h (hiff.mp hc)), if_neg h]
  have h0 := hconc 0 (by norm_num)
  have hlen : (staticRows 0 4).length = 250 := by
    rw [h0, List.length_map, List.length_range]
  exact ⟨staticRows_get? hN, h0, hlen, hconc 1 (by norm_num),
    hconc 2 (by norm_num), hconc 3 (by norm_num)⟩

theorem C4_static_rows_witness :
    (∀ k, (staticRows 0 4).get? k =
      if 0 + k * 4 < rows then some (0 + k * 4) else none) ∧
    staticRows 0 4 = (List.range 250).map (fun k => 0 + k * 4) ∧
    (staticRows 0 4).length = 250 ∧
    staticRows 1 4 = (List.range 250).map (fun k => 1 + k * 4) ∧
    staticRows 2 4 = (List.range 250).map (fun k => 2 + k * 4) ∧
    staticRows 3 4 = (List.range 250).map (fun k => 3 + k * 4) :=
  C4_static_rows 0 4 (by norm_num)

/-- C5: for every positive worker count and both modes, the total of the
per-thread row counters after joining (total_work) equals rows exactly. -/
theorem C5_total_work (work : Nat → Nat → Nat) (N : Nat) (hn : 0 < N)
    (sched : List (Fin N)) (hdone : DynDone (dynRun work N sched)) :
    staticTotal work N = rows ∧ dynTotal (dynRun work N sched) = rows :=
  ⟨static_total_eq work hn, dyn_total_eq work hn sched hdone⟩

theorem C5_total_work_witness :
    staticTotal (fun _ _ => 0) 1 = rows ∧
    dynTotal (dynRun (fun _ _ => 0) 1 (dynSched 1 Nat.one_pos)) = rows :=
  C5_total_work (fun _ _ => 0) 1 Nat.one_pos (dynSched 1 Nat.one_pos)
    (dynSched_done _ Nat.one_pos)

/-- C6 counterexample: with hardware ceiling 8, the invalid argument -t abc
parses to 0 via atoi and the thread count becomes 0, not the ceiling 8 the
claim requires. -/
theorem C6_clamp_cex :
    atoi "abc" = 0 ∧
    (procOpts 8 [Opt.t "abc"]).nThreads = 0 ∧
    (procOpts 8 [Opt.t "abc"]).nThreads ≠ 8 := by
  refine ⟨by decide, by decide, by decide⟩

/-- C6 amended: when -t is omitted the thread count defaults to 2; the value
of the last -t argument is parsed by atoi and converted to unsigned int, and
is clamped to the hardware ceiling hc only when it exceeds hc; an invalid
(non-numeric) argument parses to 0 and yields thread count 0, it is not
clamped to the ceiling; a negative argument wraps to a huge unsigned value
and is therefore clamped. -/
theorem C6_clamp (hc : Nat) (opts : List Opt) :
    (lastTArg opts = none → (procOpts hc opts).nThreads = 2) ∧
    (∀ s, lastTArg opts = some s →
      (procOpts hc opts).nThreads =
        if hc < u32 (atoi s) then hc else u32 (atoi s)) ∧
    (∀ s, lastTArg opts = some s → atoi s = 0 →
      (procOpts hc opts).nThreads = 0) ∧
    (∀ s, lastTArg opts = some s → hc < u32 (atoi s) →
      (procOpts hc opts).nThreads = hc) ∧
    (∀ s, lastTArg opts = some s → u32 (atoi s) ≤ hc →
      (procOpts hc opts).nThreads = u32 (atoi s)) := by
  have hchar := procOpts_nThreads hc opts
  refine ⟨?_, ?_, ?_, ?_, ?_⟩
  · intro h
    rw [lastTArg] at h
    rw [hchar, lastTArg, h]
  · intro s h
    rw [lastTArg] at h
    rw [hchar, lastTArg, h]
  · intro s h h0
    rw [lastTArg] at h
    rw [hchar, lastTArg, h]
    show (if hc < u32 (atoi s) then hc else u32 (atoi s)) = 0
    rw [h0]
    have hu : u32 0 = 0 := by decide
    rw [hu]
    have hlt : ¬ hc < 0 := by omega
    rw [if_neg hlt]
  · intro s h hlt
    rw [lastTArg] at h
    rw [hchar, lastTArg, h]
    show (if hc < u32 (atoi s) then hc else u32 (atoi s)) = hc
    rw [if_pos hlt]
  · intro s h hle
    rw [lastTArg] at h
    rw [hchar, lastTArg, h]
    show (if hc < u32 (atoi s) then hc else u32 (atoi s)) = u32 (atoi s)
    rw [if_neg (by omega)]

theorem C6_clamp_witness :
    (procOpts 8 [Opt.t "-3"]).nThreads = 8 :=
  (C6_clamp 8 [Opt.t "-3"]).2.2.2.1 "-3" rfl (by decide)

/-- C7 counterexample: the command line -x -d (option stream
[Opt.unk, Opt.d]) contains an unrecognized option, and main prints the
usage message, yet the computation is still performed, in dynamic mode with
the default 2 threads, because the later -d resets dflag from -1 to 1. -/
theorem C7_usage_cex :
    (procOpts 8 [Opt.unk, Opt.d]).usage = 1 ∧
    mainRun 8 [Opt.unk, Opt.d] = some (true, 2) ∧
    mainExit 8 [Opt.unk, Opt.d] = 0 := by
  refine ⟨by decide, by decide, rfl⟩

/-- C7 amended: every unrecognized option prints one usage message to the
error stream; the exit status is 0 on every path; but the computation is
skipped if and only if the last mode-setting event on the command line
(among -d and unrecognized options) is an unrecognized option, so an
unrecognized option followed by -d still computes. -/
theorem C7_usage (hc : Nat) (opts : List Opt) :
    (Opt.unk ∈ opts → 1 ≤ (procOpts hc opts).usage) ∧
    (procOpts hc opts).usage = opts.count Opt.unk ∧
    (mainRun hc opts = none ↔ lastMode opts = some false) ∧
    mainExit hc opts = 0 := by
  refine ⟨?_, procOpts_usage hc opts, ?_, rfl⟩
  · intro hmem
    rw [procOpts_usage hc opts]
    exact List.one_le_count_iff.mpr hmem
  · have hd := procOpts_dflag hc opts
    unfold mainRun
    constructor
    · intro hnone
      by_cases h : (procOpts hc opts).dflag = -1
      · rw [hd] at h
        cases hlm : lastMode opts with
        | none =>
          rw [hlm] at h
          simp at h
        | some b =>
          cases b with
          | true =>
            rw [hlm] at h
            simp at h
          | false => rfl
      · rw [if_neg h] at hnone
        cases hnone
    · intro hlm
      have h : (procOpts hc opts).dflag = -1 := by
        rw [hd, hlm]
      rw [if_pos h]

theorem C7_usage_witness :
    1 ≤ (procOpts 8 [Opt.unk]).usage ∧ mainRun 8 [Opt.unk] = none :=
  ⟨(C7_usage 8 [Opt.unk]).1 (by decide),
    ((C7_usage 8 [Opt.unk]).2.2.1).mpr rfl⟩

/-- C8: static mode is deterministic: under any two complete interleavings
of the same static run, every thread ends with identical tcount and sum
values, and those values are the pure function of (workerId, N, matrix)
computed by the sequential loop. -/
theorem C8_static_deterministic (work : Nat → Nat → Nat) (n : Nat)
    (s1 s2 : List (Fin n)) (h1 : StDone (stRun work n s1))
    (h2 : StDone (stRun work n s2)) :
    (∀ w, (stRun work n s1).tcount w = (stRun work n s2).tcount w) ∧
    (∀ w, (stRun work n s1).sum w = (stRun work n s2).sum w) ∧
    (∀ w : Fin n, (stRun work n s1).tcount w = staticTc work n w.val ∧
      (stRun work n s1).sum w = staticSum work n w.val) := by
  have key : ∀ w : Fin n,
      stTriple (stRun work n s1) w = stTriple (stRun work n s2) w := by
    intro w
    rw [stRun_triple_of_done work s1 h1 w, stRun_triple_of_done work s2 h2 w]
  refine ⟨fun w => ?_, fun w => ?_, fun w => ⟨?_, ?_⟩⟩
  · exact congrArg (fun t => t.2.1) (key w)
  · exact congrArg (fun t => t.2.2) (key w)
  · exact congrArg (fun t => t.2.1) (stRun_triple_of_done work s1 h1 w)
  · exact congrArg (fun t => t.2.2) (stRun_triple_of_done work s1 h1 w)

theorem stSched_append_done (work : Nat → Nat → Nat) {n : Nat} :
    StDone (stRun work n (stSched n ++ stSched n)) := by
  unfold stRun
  rw [List.foldl_append]
  exact stFoldl_done_mono work (stSched n) _ (stSched_done work)

theorem C8_static_deterministic_witness :
    (∀ w, (stRun (fun _ _ => 0) 1 (stSched 1)).tcount w =
      (stRun (fun _ _ => 0) 1 (stSched 1 ++ stSched 1)).tcount w) ∧
    (∀ w, (stRun (fun _ _ => 0) 1 (stSched 1)).sum w =
      (stRun (fun _ _ => 0) 1 (stSched 1 ++ stSched 1)).sum w) ∧
    (∀ w : Fin 1, (stRun (fun _ _ => 0) 1 (stSched 1)).tcount w =
      staticTc (fun _ _ => 0) 1 w.val ∧
      (stRun (fun _ _ => 0) 1 (stSched 1)).sum w =
        staticSum (fun _ _ => 0) 1 w.val) :=
  C8_static_deterministic (fun _ _ => 0) 1 (stSched 1)
    (stSched 1 ++ stSched 1) (stSched_done _) (stSched_append_done _)

/-- C9: in a completed dynamic run the rows handed out by successive
successful claims, in global lock-acquisition order, are exactly
rows-1, rows-2, ..., 0: the k-th successful claim (1-indexed) yields row
rows - k, so rows are dispensed in strictly decreasing order. -/
theorem C9_claim_order (work : Nat → Nat → Nat) (N : Nat) (hn : 0 < N)
    (sched : List (Fin N)) (hdone : DynDone (dynRun work N sched)) :
    claimSeq (dynRun work N sched) = (List.range rows).reverse ∧
    (∀ k, k < rows →
      (claimSeq (dynRun work N sched)).get? k = some (rows - 1 - k)) ∧
    (∀ k, 1 ≤ k → k ≤ rows →
      (claimSeq (dynRun work N sched)).get? (k - 1) = some (rows - k)) := by
  have hsnd := dynRun_gseq_snd work hn sched hdone
  have hseq : claimSeq (dynRun work N sched) = (List.range rows).reverse := by
    unfold claimSeq
    rw [hsnd]
  have hget : ∀ k, k < rows →
      (claimSeq (dynRun work N sched)).get? k = some (rows - 1 - k) := by
    intro k hk
    rw [hseq]
    rw [List.get?_reverse (by rw [List.length_range]; exact hk)]
    rw [List.length_range]
    exact List.get?_range (by omega)
  refine ⟨hseq, hget, fun k h1 hk => ?_⟩
  have h := hget (k - 1) (by omega)
  have he : rows - 1 - (k - 1) = rows - k := by omega
  rw [he] at h
  exact h

theorem C9_claim_order_witness :
    claimSeq (dynRun (fun _ _ => 0) 1 (dynSched 1 Nat.one_pos)) =
      (List.range rows).reverse ∧
    (∀ k, k < rows →
      (claimSeq (dynRun (fun _ _ => 0) 1 (dynSched 1 Nat.one_pos))).get? k =
        some (rows - 1 - k)) ∧
    (∀ k, 1 ≤ k → k ≤ rows →
      (claimSeq (dynRun (fun _ _ => 0) 1
        (dynSched 1 Nat.one_pos))).get? (k - 1) = some (rows - k)) :=
  C9_claim_order (fun _ _ => 0) 1 Nat.one_pos (dynSched 1 Nat.one_pos)
    (dynSched_done _ Nat.one_pos)

/-- C10: rand() entries lie below 2^31, so the exact total of the
1000 x 100 matrix is below 2^48, and every uint64_t accumulation in the
program (each thread's partial sum in either mode and the final gross sum)
equals the exact mathematical sum: the modular reduction mod 2^64 never
wraps. -/
theorem C10_no_overflow (work : Nat → Nat → Nat) (hB : ElemBound work)
    (N : Nat) (hn : 0 < N) (sched : List (Fin N))
    (hdone : DynDone (dynRun work N sched)) :
    refSum work < 2 ^ 48 ∧
    (∀ w, w < N → staticSum work N w = staticSumExact work N w) ∧
    staticGross work N = refSum work ∧
    (∀ w : Fin N, (dynRun work N sched).sum w =
      ((rowsOfW (dynRun work N sched) w).map (rowSumExact work)).sum) ∧
    dynGross (dynRun work N sched) = refSum work :=
  ⟨refSum_lt hB,
    fun _ hw => staticSum_exact work hn hw hB,
    static_gross_eq work hn hB,
    fun w => dyn_sum_exact work hn hB sched hdone w,
    dyn_gross_eq work hn hB sched hdone⟩

theorem C10_no_overflow_witness :
    refSum (fun _ _ => 0) < 2 ^ 48 ∧
    (∀ w, w < 1 →
      staticSum (fun _ _ => 0) 1 w = staticSumExact (fun _ _ => 0) 1 w) ∧
    staticGross (fun _ _ => 0) 1 = refSum (fun _ _ => 0) ∧
    (∀ w : Fin 1,
      (dynRun (fun _ _ => 0) 1 (dynSched 1 Nat.one_pos)).sum w =
        ((rowsOfW (dynRun (fun _ _ => 0) 1 (dynSched 1 Nat.one_pos)) w).map
          (rowSumExact (fun _ _ => 0))).sum) ∧
    dynGross (dynRun (fun _ _ => 0) 1 (dynSched 1 Nat.one_pos)) =
      refSum (fun _ _ => 0) :=
  C10_no_overflow (fun _ _ => 0) (fun i _ j _ => by norm_num) 1 Nat.one_pos
    (dynSched 1 Nat.one_pos) (dynSched_done _ Nat.one_pos)

end Reduce
